import Mathlib

/-!
Shallow embedding of `src/data_structures/linkedlist.rs`: a doubly linked
list over reference-counted, interiorly mutable nodes.  The `Rc<RefCell<Box<Node>>>`
graph is modelled as a heap `List (Node α)` addressed by `Nat` (a `Link` is an
address); allocation (`Node::new_link`) appends at the end of the heap, so a
fresh address is the current heap length.  Dropping of unreachable nodes is not
modelled: it is unobservable through the API.
-/

/-- `Node<T>`: one data item plus optional links to the previous and next node
(`linkedlist.rs` lines 174-179).  A `Link<T>` is modelled as a heap address. -/
structure Node (α : Type) where
  data : α
  prev : Option Nat
  next : Option Nat
  deriving Repr, DecidableEq

/-- `enum Where { Head, Tail }` (`linkedlist.rs` lines 13-17). -/
inductive Where where
  | Head
  | Tail
  deriving Repr, DecidableEq

/-- `LinkedList<T>` (`linkedlist.rs` lines 8-11): the optional `[head, tail]`
pair of links plus the element count, together with the node heap the links
point into (in Rust the heap is implicit in the `Rc` graph). -/
structure LinkedList (α : Type) where
  heap : List (Node α)
  head_and_tail : Option (Nat × Nat)
  len : Nat
  deriving Repr, DecidableEq

namespace LinkedList

/-- `LinkedList::new` (`linkedlist.rs` lines 32-37). -/
def new (α : Type) : LinkedList α :=
  { heap := [], head_and_tail := none, len := 0 }

end LinkedList

/-- Read the indicated end of the `[head, tail]` pair
(`head_and_tail[update_index]` with `From<Where> for usize`: Head ↦ 0, Tail ↦ 1). -/
def getHT (ht : Nat × Nat) : Where → Nat
  | .Head => ht.1
  | .Tail => ht.2

/-- Write the indicated end of the `[head, tail]` pair. -/
def setHT (ht : Nat × Nat) : Where → Nat → Nat × Nat
  | .Head, a => (a, ht.2)
  | .Tail, a => (ht.1, a)

/-- In-place update of the node at `addr` (a `RefCell::borrow_mut` write);
out-of-range addresses leave the heap unchanged (cannot occur through the API,
where every live `Link` points at an allocated node). -/
def modifyNode (heap : List (Node α)) (addr : Nat) (f : Node α → Node α) :
    List (Node α) :=
  match heap[addr]? with
  | none => heap
  | some nd => heap.set addr (f nd)

/-- `set_prev` (`linkedlist.rs` lines 164-167): update the `prev` link of the
node at `addr`. -/
def set_prev (heap : List (Node α)) (addr : Nat) (other : Option Nat) :
    List (Node α) :=
  modifyNode heap addr (fun nd => { nd with prev := other })

/-- `set_next` (`linkedlist.rs` lines 169-172): update the `next` link of the
node at `addr`. -/
def set_next (heap : List (Node α)) (addr : Nat) (other : Option Nat) :
    List (Node α) :=
  modifyNode heap addr (fun nd => { nd with next := other })

namespace LinkedList

/-- `LinkedList::push_helper` (`linkedlist.rs` lines 39-61).  A fresh node is
allocated (address = current heap length), `len` is incremented; on an empty
list the new node becomes both head and tail, otherwise `setter1` updates the
old boundary node, `setter2` the new node, and the boundary link is replaced. -/
def push_helper (s : LinkedList α) (data : α) (where_to_update : Where) :
    LinkedList α :=
  let setters :
      (List (Node α) → Nat → Option Nat → List (Node α)) ×
      (List (Node α) → Nat → Option Nat → List (Node α)) :=
    match where_to_update with
    | .Head => (set_prev, set_next)
    | .Tail => (set_next, set_prev)
  let new_node : Nat := s.heap.length
  let heap0 : List (Node α) := s.heap ++ [⟨data, none, none⟩]
  match s.head_and_tail with
  | none =>
      { heap := heap0, head_and_tail := some (new_node, new_node),
        len := s.len + 1 }
  | some ht =>
      let old : Nat := getHT ht where_to_update
      let heap1 := setters.1 heap0 old (some new_node)
      let heap2 := setters.2 heap1 new_node (some old)
      { heap := heap2,
        head_and_tail := some (setHT ht where_to_update new_node),
        len := s.len + 1 }

/-- `LinkedList::push` (`linkedlist.rs` lines 64-66): append at the tail. -/
def push (s : LinkedList α) (data : α) : LinkedList α :=
  s.push_helper data .Tail

/-- `LinkedList::push_front` (`linkedlist.rs` lines 69-71): insert at the head. -/
def push_front (s : LinkedList α) (data : α) : LinkedList α :=
  s.push_helper data .Head

/-- `LinkedList::pop_helper` (`linkedlist.rs` lines 73-102).  On an empty list
nothing happens and `none` is returned.  Otherwise the boundary node is read;
if its inward link (`get_prev` for Tail, `get_next` for Head) is absent the
list had one element and `head_and_tail` is cleared, else the boundary link is
moved inward and the outward link of the new boundary node is cleared; `len`
is decremented and the data of the removed node returned. -/
def pop_helper (s : LinkedList α) (where_to_update : Where) :
    Option α × LinkedList α :=
  let getter : Node α → Option Nat :=
    match where_to_update with
    | .Head => Node.next
    | .Tail => Node.prev
  let setter : List (Node α) → Nat → Option Nat → List (Node α) :=
    match where_to_update with
    | .Head => set_prev
    | .Tail => set_next
  match s.head_and_tail with
  | none => (none, s)
  | some ht =>
      let old : Nat := getHT ht where_to_update
      match s.heap[old]? with
      | none => (none, s)  -- a live Link always points at an allocated node
      | some old_node =>
          match getter old_node with
          | none =>
              (some old_node.data,
               { heap := s.heap, head_and_tail := none, len := s.len - 1 })
          | some link =>
              (some old_node.data,
               { heap := setter s.heap link none,
                 head_and_tail := some (setHT ht where_to_update link),
                 len := s.len - 1 })

/-- `LinkedList::pop` (`linkedlist.rs` lines 106-108): remove at the tail. -/
def pop (s : LinkedList α) : Option α × LinkedList α :=
  s.pop_helper .Tail

/-- `LinkedList::pop_front` (`linkedlist.rs` lines 112-114): remove at the head. -/
def pop_front (s : LinkedList α) : Option α × LinkedList α :=
  s.pop_helper .Head

/-- `LinkedList::len` (`linkedlist.rs` lines 117-119). -/
def length (s : LinkedList α) : Nat :=
  s.len

/-- `LinkedList::is_empty` (`linkedlist.rs` lines 122-124). -/
def is_empty (s : LinkedList α) : Bool :=
  s.len == 0

end LinkedList

/-- `LinkedListIter<T>` (`linkedlist.rs` lines 225-227): a cursor holding an
optional link. -/
structure LinkedListIter (α : Type) where
  cursor : Option Nat
  deriving Repr, DecidableEq

namespace LinkedList

/-- `LinkedList::iter` (`linkedlist.rs` lines 127-134): a fresh iterator whose
cursor is the head link, if any. -/
def iter (s : LinkedList α) : LinkedListIter α :=
  ⟨s.head_and_tail.map Prod.fst⟩

/-- `IntoIterator::into_iter for LinkedList` (`linkedlist.rs` lines 142-150):
literally `self.iter()`. -/
def into_iter (s : LinkedList α) : LinkedListIter α :=
  s.iter

end LinkedList

namespace LinkedListIter

/-- `Iterator::next for LinkedListIter` (`linkedlist.rs` lines 238-251).  The
call runs against the node heap; since the body only reads (`borrow`,
`get_data`, `get_next` clone), the heap it returns is the one it was given.
An unset cursor yields `none` and leaves the iterator unchanged; a dangling
cursor cannot arise from the API (every cursor comes from a live link). -/
def next (heap : List (Node α)) (it : LinkedListIter α) :
    Option α × List (Node α) × LinkedListIter α :=
  match it.cursor with
  | none => (none, heap, it)
  | some addr =>
      match heap[addr]? with
      | none => (none, heap, it)
      | some nd => (some nd.data, heap, ⟨nd.next⟩)

end LinkedListIter

/-- Run the iterator up to `fuel` steps against a fixed heap, collecting the
yielded values (the `collect` of the Rust tests). -/
def iterTrace (heap : List (Node α)) : LinkedListIter α → Nat → List α
  | _, 0 => []
  | it, fuel + 1 =>
      match LinkedListIter.next heap it with
      | (none, _, _) => []
      | (some v, _, it2) => v :: iterTrace heap it2 fuel

/-- The iterator state after `n` calls to `next` against a fixed heap. -/
def iterStepN (heap : List (Node α)) (it : LinkedListIter α) : Nat → LinkedListIter α
  | 0 => it
  | n + 1 => iterStepN heap (LinkedListIter.next heap it).2.2 n

/-- Thread `n` calls to `next` through the full program state: each call
receives the heap the previous call returned.  Returns the collected values,
the final heap and the final iterator. -/
def iterRun (heap : List (Node α)) (it : LinkedListIter α) :
    Nat → List α × List (Node α) × LinkedListIter α
  | 0 => ([], heap, it)
  | n + 1 =>
      match LinkedListIter.next heap it with
      | (none, heap2, it2) =>
          let r := iterRun heap2 it2 n
          (r.1, r.2)
      | (some v, heap2, it2) =>
          let r := iterRun heap2 it2 n
          (v :: r.1, r.2)

/-- Walk the node graph from `start`, following the link selected by `f`
(`Node.next` or `Node.prev`), collecting visited addresses, for at most `fuel`
steps. -/
def walk (heap : List (Node α)) (f : Node α → Option Nat) :
    Option Nat → Nat → List Nat
  | none, _ => []
  | some _, 0 => []
  | some a, fuel + 1 =>
      match heap[a]? with
      | none => []
      | some nd => a :: walk heap f (f nd) fuel

/-- Push every value of `vs`, in order, with `push` (the loops of the Rust
tests). -/
def pushAll (s : LinkedList α) (vs : List α) : LinkedList α :=
  vs.foldl LinkedList.push s

/-- Push every value of `vs`, in order, with `push_front`. -/
def pushFrontAll (s : LinkedList α) (vs : List α) : LinkedList α :=
  vs.foldl LinkedList.push_front s

/-- Call `pop_front` `n` times, collecting the values yielded before the first
empty result. -/
def drainFront : LinkedList α → Nat → List α × LinkedList α
  | s, 0 => ([], s)
  | s, n + 1 =>
      let r := s.pop_front
      match r.1 with
      | none => ([], r.2)
      | some v =>
          let r2 := drainFront r.2 n
          (v :: r2.1, r2.2)

/-- Call `pop` `n` times, collecting the values yielded before the first empty
result. -/
def drainBack : LinkedList α → Nat → List α × LinkedList α
  | s, 0 => ([], s)
  | s, n + 1 =>
      let r := s.pop
      match r.1 with
      | none => ([], r.2)
      | some v =>
          let r2 := drainBack r.2 n
          (v :: r2.1, r2.2)

/-- One call of the public mutating API. -/
inductive Op (α : Type) where
  | push (v : α)
  | push_front (v : α)
  | pop
  | pop_front

/-- Apply one operation; the boolean records whether a pop returned a value
(pushes return nothing). -/
def applyOp (s : LinkedList α) : Op α → LinkedList α × Bool
  | .push v => (s.push v, false)
  | .push_front v => (s.push_front v, false)
  | .pop => ((s.pop).2, (s.pop).1.isSome)
  | .pop_front => ((s.pop_front).2, (s.pop_front).1.isSome)

/-- Run a sequence of operations, counting the pops that returned a value. -/
def runOps : LinkedList α → List (Op α) → LinkedList α × Nat
  | s, [] => (s, 0)
  | s, op :: ops =>
      let r := applyOp s op
      let rest := runOps r.1 ops
      (rest.1, (if r.2 then 1 else 0) + rest.2)

/-- The number of `push`/`push_front` calls in a sequence of operations. -/
def countPushes : List (Op α) → Nat
  | [] => 0
  | .push _ :: ops => countPushes ops + 1
  | .push_front _ :: ops => countPushes ops + 1
  | .pop :: ops => countPushes ops
  | .pop_front :: ops => countPushes ops

/-- The list states reachable from `LinkedList::new` through the public API. -/
inductive Reachable {α : Type} : LinkedList α → Prop where
  | new : Reachable (LinkedList.new α)
  | push (s : LinkedList α) (v : α) : Reachable s → Reachable (s.push v)
  | push_front (s : LinkedList α) (v : α) : Reachable s →
      Reachable (s.push_front v)
  | pop (s : LinkedList α) : Reachable s → Reachable (s.pop).2
  | pop_front (s : LinkedList α) : Reachable s → Reachable (s.pop_front).2

/-! ### The linking invariant

`chain heap p cells` says that the cells `[(a₁, v₁), …, (aₙ, vₙ)]` form a
well-linked doubly linked segment in `heap`: node `aᵢ` holds data `vᵢ`, its
`prev` is `aᵢ₋₁` (`p` for the first node) and its `next` is `aᵢ₊₁` (`none` for
the last node). -/

def chain (heap : List (Node α)) : Option Nat → List (Nat × α) → Prop
  | _, [] => True
  | p, c :: rest =>
      ∃ nd, heap[c.1]? = some nd ∧ nd.data = c.2 ∧ nd.prev = p ∧
        nd.next = (rest.head?).map Prod.fst ∧ chain heap (some c.1) rest

/-- A full list state is well formed with cells `cells`: the cells are chained
from the head, addresses are distinct, `len` is the cell count, and
`head_and_tail` is the first/last cell address pair (absent iff no cells). -/
def ListInv (s : LinkedList α) (cells : List (Nat × α)) : Prop :=
  chain s.heap none cells ∧
  (cells.map Prod.fst).Nodup ∧
  s.len = cells.length ∧
  (match s.head_and_tail with
   | none => cells = []
   | some ht =>
       cells ≠ [] ∧ (cells.map Prod.fst).head? = some ht.1 ∧
       (cells.map Prod.fst).getLast? = some ht.2)

/-- The list state realises the abstract contents `l`. -/
def Models (s : LinkedList α) (l : List α) : Prop :=
  ∃ cells, ListInv s cells ∧ cells.map Prod.snd = l

theorem modifyNode_length (heap : List (Node α)) (a : Nat) (f : Node α → Node α) :
    (modifyNode heap a f).length = heap.length := by
  unfold modifyNode
  cases h : heap[a]? <;> simp

theorem getElem?_modifyNode_self {heap : List (Node α)} {a : Nat} {nd : Node α}
    (f : Node α → Node α) (h : heap[a]? = some nd) :
    (modifyNode heap a f)[a]? = some (f nd) := by
  obtain ⟨hlt, -⟩ := List.getElem?_eq_some.1 h
  unfold modifyNode
  rw [h, List.getElem?_set]
  simp [hlt]

theorem getElem?_modifyNode_ne {heap : List (Node α)} {a b : Nat}
    (f : Node α → Node α) (h : b ≠ a) :
    (modifyNode heap a f)[b]? = heap[b]? := by
  unfold modifyNode
  cases hh : heap[a]? with
  | none => rfl
  | some nd => rw [List.getElem?_set_ne (Ne.symm h)]

theorem chain_congr {heap heap2 : List (Node α)} :
    ∀ {p : Option Nat} {cells : List (Nat × α)},
      (∀ a ∈ cells.map Prod.fst, heap2[a]? = heap[a]?) →
      chain heap p cells → chain heap2 p cells := by
  intro p cells
  induction cells generalizing p with
  | nil => intro _ _; trivial
  | cons c rest ih =>
      intro hagree hch
      obtain ⟨nd, hnd, hdata, hprev, hnext, hrest⟩ := hch
      refine ⟨nd, ?_, hdata, hprev, hnext, ih (fun a ha => hagree a ?_) hrest⟩
      · rw [hagree c.1 (by simp)]; exact hnd
      · simp only [List.map_cons, List.mem_cons]
        exact Or.inr ha

theorem chain_bound {heap : List (Node α)} :
    ∀ {p : Option Nat} {cells : List (Nat × α)},
      chain heap p cells → ∀ a ∈ cells.map Prod.fst, a < heap.length := by
  intro p cells
  induction cells generalizing p with
  | nil => intro _ a ha; simp at ha
  | cons c rest ih =>
      intro hch a ha
      obtain ⟨nd, hnd, -, -, -, hrest⟩ := hch
      simp only [List.map_cons, List.mem_cons] at ha
      rcases ha with rfl | ha
      · exact (List.getElem?_eq_some.1 hnd).1
      · exact ih hrest a ha

theorem getElem?_append_of_lt {β : Type} {l : List β} {x : β} {a : Nat}
    (h : a < l.length) : (l ++ [x])[a]? = l[a]? := by
  rw [List.getElem?_append]
  simp [h]

/-! ### Branch computation lemmas for the push/pop helpers -/

theorem push_front_eq_none {s : LinkedList α} (v : α)
    (h : s.head_and_tail = none) :
    s.push_front v =
      { heap := s.heap ++ [⟨v, none, none⟩],
        head_and_tail := some (s.heap.length, s.heap.length),
        len := s.len + 1 } := by
  unfold LinkedList.push_front LinkedList.push_helper
  rw [h]

theorem push_eq_none {s : LinkedList α} (v : α)
    (h : s.head_and_tail = none) :
    s.push v =
      { heap := s.heap ++ [⟨v, none, none⟩],
        head_and_tail := some (s.heap.length, s.heap.length),
        len := s.len + 1 } := by
  unfold LinkedList.push LinkedList.push_helper
  rw [h]

theorem push_front_eq_some {s : LinkedList α} (v : α) {ht : Nat × Nat}
    (h : s.head_and_tail = some ht) :
    s.push_front v =
      { heap := set_next
          (set_prev (s.heap ++ [⟨v, none, none⟩]) ht.1 (some s.heap.length))
          s.heap.length (some ht.1),
        head_and_tail := some (s.heap.length, ht.2),
        len := s.len + 1 } := by
  unfold LinkedList.push_front LinkedList.push_helper
  rw [h]
  rfl

theorem push_eq_some {s : LinkedList α} (v : α) {ht : Nat × Nat}
    (h : s.head_and_tail = some ht) :
    s.push v =
      { heap := set_prev
          (set_next (s.heap ++ [⟨v, none, none⟩]) ht.2 (some s.heap.length))
          s.heap.length (some ht.2),
        head_and_tail := some (ht.1, s.heap.length),
        len := s.len + 1 } := by
  unfold LinkedList.push LinkedList.push_helper
  rw [h]
  rfl

theorem pop_helper_eq_none {s : LinkedList α} (w : Where)
    (h : s.head_and_tail = none) : s.pop_helper w = (none, s) := by
  unfold LinkedList.pop_helper
  rw [h]

theorem pop_eq_single {s : LinkedList α} {ht : Nat × Nat} {nd : Node α}
    (h : s.head_and_tail = some ht) (hnd : s.heap[ht.2]? = some nd)
    (hprev : nd.prev = none) :
    s.pop = (some nd.data,
      { heap := s.heap, head_and_tail := none, len := s.len - 1 }) := by
  unfold LinkedList.pop LinkedList.pop_helper
  rw [h]
  simp only [getHT, hnd, hprev]

theorem pop_eq_multi {s : LinkedList α} {ht : Nat × Nat} {nd : Node α}
    {p2 : Nat} (h : s.head_and_tail = some ht) (hnd : s.heap[ht.2]? = some nd)
    (hprev : nd.prev = some p2) :
    s.pop = (some nd.data,
      { heap := set_next s.heap p2 none,
        head_and_tail := some (ht.1, p2), len := s.len - 1 }) := by
  unfold LinkedList.pop LinkedList.pop_helper
  rw [h]
  simp only [getHT, hnd, hprev]
  rfl

theorem pop_front_eq_single {s : LinkedList α} {ht : Nat × Nat} {nd : Node α}
    (h : s.head_and_tail = some ht) (hnd : s.heap[ht.1]? = some nd)
    (hnext : nd.next = none) :
    s.pop_front = (some nd.data,
      { heap := s.heap, head_and_tail := none, len := s.len - 1 }) := by
  unfold LinkedList.pop_front LinkedList.pop_helper
  rw [h]
  simp only [getHT, hnd, hnext]

theorem pop_front_eq_multi {s : LinkedList α} {ht : Nat × Nat} {nd : Node α}
    {b : Nat} (h : s.head_and_tail = some ht) (hnd : s.heap[ht.1]? = some nd)
    (hnext : nd.next = some b) :
    s.pop_front = (some nd.data,
      { heap := set_prev s.heap b none,
        head_and_tail := some (b, ht.2), len := s.len - 1 }) := by
  unfold LinkedList.pop_front LinkedList.pop_helper
  rw [h]
  simp only [getHT, hnd, hnext]
  rfl

theorem mem_of_getLast?_eq {β : Type} :
    ∀ {l : List β} {x : β}, l.getLast? = some x → x ∈ l := by
  intro l
  induction l with
  | nil => intro x h; simp at h
  | cons a l2 ih =>
      intro x h
      cases l2 with
      | nil =>
          simp only [List.getLast?_singleton, Option.some.injEq] at h
          simp [h]
      | cons b l3 =>
          rw [List.getLast?_cons_cons] at h
          exact List.mem_cons_of_mem _ (ih h)

/-- Appending a fresh node `n` after the old tail `t` (whose `next` is redirected
to `n`) extends a chain by one cell at the back. -/
theorem chain_snoc_update {heap heap2 : List (Node α)} {t n : Nat} {v : α} :
    ∀ {cells : List (Nat × α)} {p : Option Nat},
      (cells.map Prod.fst).Nodup →
      (cells.map Prod.fst).getLast? = some t →
      (∀ a ∈ cells.map Prod.fst, a ≠ t → heap2[a]? = heap[a]?) →
      (∀ nd : Node α, heap[t]? = some nd →
        heap2[t]? = some { nd with next := some n }) →
      heap2[n]? = some ⟨v, some t, none⟩ →
      chain heap p cells → chain heap2 p (cells ++ [(n, v)]) := by
  intro cells
  induction cells with
  | nil => intro p _ hlast _ _ _ _; simp at hlast
  | cons c rest ih =>
      intro p hnodup hlast hagree htt hnew hch
      obtain ⟨nd, hnd, hdata, hprev, hnext, hrest⟩ := hch
      cases rest with
      | nil =>
          have hct : c.1 = t := by simpa using hlast
          rw [hct] at hnd
          refine ⟨{ nd with next := some n }, ?_, hdata, hprev, by simp, ?_⟩
          · rw [hct]; exact htt nd hnd
          · exact ⟨⟨v, some t, none⟩, hnew, rfl, by rw [hct], rfl, trivial⟩
      | cons c2 rest2 =>
          have hnodup2 : (c.1 :: (c2 :: rest2).map Prod.fst).Nodup := by
            simpa only [List.map_cons] using hnodup
          have hlast2 : ((c2 :: rest2).map Prod.fst).getLast? = some t := by
            simpa [List.getLast?_cons_cons] using hlast
          have htmem : t ∈ (c2 :: rest2).map Prod.fst :=
            mem_of_getLast?_eq hlast2
          have hct : c.1 ≠ t := by
            intro hcontr
            exact (List.nodup_cons.1 hnodup2).1 (by rw [hcontr]; exact htmem)
          have hsub : ∀ a ∈ (c2 :: rest2).map Prod.fst,
              a ∈ (c :: c2 :: rest2).map Prod.fst := by
            intro a ha
            simp only [List.map_cons, List.mem_cons] at ha ⊢
            tauto
          refine ⟨nd, ?_, hdata, hprev, by simpa using hnext, ?_⟩
          · rw [hagree c.1 (by simp) hct]; exact hnd
          · exact ih (List.nodup_cons.1 hnodup2).2 hlast2
              (fun a ha hat => hagree a (hsub a ha) hat) htt hnew hrest

/-- Reading the last node of a chained segment: it holds the last data value,
its `next` is absent and its `prev` is the previous address (or the incoming
link for a one-cell segment). -/
theorem chain_getLast_node {heap : List (Node α)} {c : Nat × α} :
    ∀ {cells : List (Nat × α)} {p : Option Nat},
      chain heap p (cells ++ [c]) →
      ∃ nd, heap[c.1]? = some nd ∧ nd.data = c.2 ∧ nd.next = none ∧
        nd.prev = ((cells.map Prod.fst).getLast?).or p := by
  intro cells
  induction cells with
  | nil =>
      intro p hch
      obtain ⟨nd, hnd, hdata, hprev, hnext, -⟩ := hch
      exact ⟨nd, hnd, hdata, by simpa using hnext, by simpa using hprev⟩
  | cons c1 rest ih =>
      intro p hch
      obtain ⟨-, -, -, -, -, hrest⟩ := hch
      obtain ⟨nd, hnd, hdata, hnext, hprev⟩ := ih hrest
      refine ⟨nd, hnd, hdata, hnext, ?_⟩
      cases rest with
      | nil => simpa using hprev
      | cons c2 rest2 =>
          have hne : ((c2 :: rest2).map Prod.fst) ≠ [] := by simp
          obtain ⟨x, hx⟩ :=
            Option.isSome_iff_exists.1 (List.getLast?_isSome.2 hne)
          rw [hx] at hprev
          simp only [List.map_cons] at hx ⊢
          rw [List.getLast?_cons_cons, hx]
          simpa using hprev

/-- Severing the last cell: clearing the `next` of the second-to-last node `p2`
turns a chain on `cells ++ [c]` into a chain on `cells`. -/
theorem chain_unsnoc_update {heap heap2 : List (Node α)} {p2 : Nat}
    {c : Nat × α} :
    ∀ {cells : List (Nat × α)} {p : Option Nat},
      (cells.map Prod.fst).Nodup →
      (cells.map Prod.fst).getLast? = some p2 →
      (∀ a ∈ cells.map Prod.fst, a ≠ p2 → heap2[a]? = heap[a]?) →
      (∀ nd : Node α, heap[p2]? = some nd →
        heap2[p2]? = some { nd with next := none }) →
      chain heap p (cells ++ [c]) → chain heap2 p cells := by
  intro cells
  induction cells with
  | nil => intro p _ hlast _ _ _; simp at hlast
  | cons c1 rest ih =>
      intro p hnodup hlast hagree hp2 hch
      obtain ⟨nd, hnd, hdata, hprev, hnext, hrest⟩ := hch
      cases rest with
      | nil =>
          have hct : c1.1 = p2 := by simpa using hlast
          rw [hct] at hnd
          refine ⟨{ nd with next := none }, ?_, hdata, hprev, by simp, trivial⟩
          rw [hct]
          exact hp2 nd hnd
      | cons c2 rest2 =>
          have hnodup2 : (c1.1 :: (c2 :: rest2).map Prod.fst).Nodup := by
            simpa only [List.map_cons] using hnodup
          have hlast2 : ((c2 :: rest2).map Prod.fst).getLast? = some p2 := by
            simpa [List.getLast?_cons_cons] using hlast
          have htmem : p2 ∈ (c2 :: rest2).map Prod.fst :=
            mem_of_getLast?_eq hlast2
          have hct : c1.1 ≠ p2 := by
            intro hcontr
            exact (List.nodup_cons.1 hnodup2).1 (by rw [hcontr]; exact htmem)
          have hsub : ∀ a ∈ (c2 :: rest2).map Prod.fst,
              a ∈ (c1 :: c2 :: rest2).map Prod.fst := by
            intro a ha
            simp only [List.map_cons, List.mem_cons] at ha ⊢
            tauto
          refine ⟨nd, ?_, hdata, hprev, by simpa using hnext, ?_⟩
          · rw [hagree c1.1 (by simp) hct]; exact hnd
          · exact ih (List.nodup_cons.1 hnodup2).2 hlast2
              (fun a ha hat => hagree a (hsub a ha) hat) hp2 hrest

/-! ### Invariant preservation by the four list operations -/

theorem ListInv_new (α : Type) : ListInv (LinkedList.new α) [] :=
  ⟨trivial, List.nodup_nil, rfl, rfl⟩

theorem ListInv_push_front {s : LinkedList α} {cells : List (Nat × α)} (v : α)
    (h : ListInv s cells) :
    ListInv (s.push_front v) ((s.heap.length, v) :: cells) := by
  obtain ⟨hch, hnodup, hlen, hht⟩ := h
  have hbound := chain_bound hch
  cases hht2 : s.head_and_tail with
  | none =>
      have hcells : cells = [] := by rw [hht2] at hht; exact hht
      subst hcells
      rw [push_front_eq_none v hht2]
      refine ⟨⟨⟨v, none, none⟩, List.getElem?_concat_length _ _, rfl, rfl, rfl,
        trivial⟩, by simp, by simpa using hlen, by simp⟩
  | some ht =>
      rw [hht2] at hht
      obtain ⟨hne, hhead, hlast⟩ := hht
      cases cells with
      | nil => exact absurd rfl hne
      | cons c rest =>
          have hc1 : c.1 = ht.1 := by simpa using hhead
          obtain ⟨ndh, hndh, hdata, hprev, hnext, hrest⟩ := hch
          rw [hc1] at hndh hrest
          have hlt1 : ht.1 < s.heap.length := (List.getElem?_eq_some.1 hndh).1
          rw [push_front_eq_some v hht2]
          set n := s.heap.length with hn
          set x : Node α := ⟨v, none, none⟩ with hx
          set heap2 :=
            set_next (set_prev (s.heap ++ [x]) ht.1 (some n)) n (some ht.1)
            with hheap2
          have hlk_new : heap2[n]? = some ⟨v, none, some ht.1⟩ := by
            have h0 : (s.heap ++ [x])[n]? = some x :=
              List.getElem?_concat_length _ _
            have h1 : (set_prev (s.heap ++ [x]) ht.1 (some n))[n]? = some x := by
              rw [set_prev, getElem?_modifyNode_ne _ (by omega : n ≠ ht.1)]
              exact h0
            rw [hheap2, set_next, getElem?_modifyNode_self _ h1]
          have hlk_h : heap2[ht.1]? = some { ndh with prev := some n } := by
            have h0 : (s.heap ++ [x])[ht.1]? = some ndh := by
              rw [getElem?_append_of_lt hlt1]; exact hndh
            have h1 : (set_prev (s.heap ++ [x]) ht.1 (some n))[ht.1]? =
                some { ndh with prev := some n } := by
              rw [set_prev, getElem?_modifyNode_self _ h0]
            rw [hheap2, set_next, getElem?_modifyNode_ne _ (by omega : ht.1 ≠ n)]
            exact h1
          have hagree : ∀ a, a < n → a ≠ ht.1 → heap2[a]? = s.heap[a]? := by
            intro a ha hane
            rw [hheap2, set_next, getElem?_modifyNode_ne _ (by omega : a ≠ n),
              set_prev, getElem?_modifyNode_ne _ hane, getElem?_append_of_lt ha]
          have hnotmem : ht.1 ∉ rest.map Prod.fst := by
            have := (List.nodup_cons.1 (by simpa only [List.map_cons]
              using hnodup)).1
            rw [hc1] at this
            exact this
          refine ⟨?_, ?_, ?_, ?_⟩
          · refine ⟨⟨v, none, some ht.1⟩, hlk_new, rfl, rfl, by simp [hc1],
              ⟨{ ndh with prev := some n }, by rw [hc1]; exact hlk_h, hdata,
                rfl, by simpa using hnext, ?_⟩⟩
            rw [hc1]
            refine chain_congr (fun a ha => ?_) hrest
            have halt : a < n := hbound a (by
              simp only [List.map_cons, List.mem_cons]
              exact Or.inr ha)
            have hane : a ≠ ht.1 := fun hcontr => hnotmem (hcontr ▸ ha)
            exact hagree a halt hane
          · simp only [List.map_cons, List.nodup_cons]
            constructor
            · intro hmem
              rcases List.mem_cons.1 hmem with hcontr | hmem2
              · omega
              · have := hbound n (by
                  simp only [List.map_cons, List.mem_cons]
                  exact Or.inr hmem2)
                omega
            · exact List.nodup_cons.1 (by simpa only [List.map_cons]
                using hnodup)
          · simpa using hlen
          · refine ⟨by simp, by simp, ?_⟩
            simp only [List.map_cons]
            rw [List.getLast?_cons_cons]
            simpa using hlast

theorem ListInv_push {s : LinkedList α} {cells : List (Nat × α)} (v : α)
    (h : ListInv s cells) :
    ListInv (s.push v) (cells ++ [(s.heap.length, v)]) := by
  obtain ⟨hch, hnodup, hlen, hht⟩ := h
  have hbound := chain_bound hch
  cases hht2 : s.head_and_tail with
  | none =>
      have hcells : cells = [] := by rw [hht2] at hht; exact hht
      subst hcells
      rw [push_eq_none v hht2]
      refine ⟨⟨⟨v, none, none⟩, List.getElem?_concat_length _ _, rfl, rfl, rfl,
        trivial⟩, by simp, by simpa using hlen, by simp⟩
  | some ht =>
      rw [hht2] at hht
      obtain ⟨hne, hhead, hlast⟩ := hht
      have htmem : ht.2 ∈ cells.map Prod.fst := mem_of_getLast?_eq hlast
      have hlt2 : ht.2 < s.heap.length := hbound ht.2 htmem
      obtain ⟨ndt, hndt⟩ : ∃ nd, s.heap[ht.2]? = some nd :=
        ⟨s.heap[ht.2], List.getElem?_eq_getElem hlt2⟩
      rw [push_eq_some v hht2]
      set n := s.heap.length with hn
      set x : Node α := ⟨v, none, none⟩ with hx
      set heap2 :=
        set_prev (set_next (s.heap ++ [x]) ht.2 (some n)) n (some ht.2)
        with hheap2
      have hlk_new : heap2[n]? = some ⟨v, some ht.2, none⟩ := by
        have h0 : (s.heap ++ [x])[n]? = some x :=
          List.getElem?_concat_length _ _
        have h1 : (set_next (s.heap ++ [x]) ht.2 (some n))[n]? = some x := by
          rw [set_next, getElem?_modifyNode_ne _ (by omega : n ≠ ht.2)]
          exact h0
        rw [hheap2, set_prev, getElem?_modifyNode_self _ h1]
      have hlk_t : ∀ nd : Node α, s.heap[ht.2]? = some nd →
          heap2[ht.2]? = some { nd with next := some n } := by
        intro nd hnd
        have h0 : (s.heap ++ [x])[ht.2]? = some nd := by
          rw [getElem?_append_of_lt hlt2]; exact hnd
        have h1 : (set_next (s.heap ++ [x]) ht.2 (some n))[ht.2]? =
            some { nd with next := some n } := by
          rw [set_next, getElem?_modifyNode_self _ h0]
        rw [hheap2, set_prev, getElem?_modifyNode_ne _ (by omega : ht.2 ≠ n)]
        exact h1
      have hagree : ∀ a ∈ cells.map Prod.fst, a ≠ ht.2 →
          heap2[a]? = s.heap[a]? := by
        intro a ha hane
        have halt : a < n := hbound a ha
        rw [hheap2, set_prev, getElem?_modifyNode_ne _ (by omega : a ≠ n),
          set_next, getElem?_modifyNode_ne _ hane, getElem?_append_of_lt halt]
      refine ⟨?_, ?_, ?_, ?_⟩
      · exact chain_snoc_update hnodup hlast hagree hlk_t hlk_new hch
      · rw [List.map_append]
        rw [List.nodup_append]
        refine ⟨hnodup, by simp, ?_⟩
        intro a ha hmem
        have := hbound a ha
        simp only [List.map_cons, List.map_nil, List.mem_singleton] at hmem
        omega
      · simpa using hlen
      · refine ⟨by simp, ?_, ?_⟩
        · rw [List.map_append, List.head?_append_of_ne_nil]
          · exact hhead
          · intro hcontr
            rw [hcontr] at hhead
            simp at hhead
        · rw [List.map_append]
          simp

theorem ListInv_pop_front {s : LinkedList α} {cells : List (Nat × α)}
    (h : ListInv s cells) :
    (s.pop_front).1 = (cells.head?).map Prod.snd ∧
      ListInv (s.pop_front).2 cells.tail := by
  obtain ⟨hch, hnodup, hlen, hht⟩ := h
  cases hht2 : s.head_and_tail with
  | none =>
      have hcells : cells = [] := by rw [hht2] at hht; exact hht
      subst hcells
      rw [LinkedList.pop_front, pop_helper_eq_none _ hht2]
      exact ⟨rfl, hch, hnodup, hlen, by simp [hht2]⟩
  | some ht =>
      rw [hht2] at hht
      obtain ⟨hne, hhead, hlast⟩ := hht
      cases cells with
      | nil => exact absurd rfl hne
      | cons c rest =>
          have hc1 : c.1 = ht.1 := by simpa using hhead
          obtain ⟨ndh, hndh, hdata, hprev, hnext, hrest⟩ := hch
          rw [hc1] at hndh hrest
          cases rest with
          | nil =>
              have hnext0 : ndh.next = none := by simpa using hnext
              rw [pop_front_eq_single hht2 hndh hnext0]
              refine ⟨by simp [hdata], trivial, by simp, ?_, rfl⟩
              simp only [List.length_cons, List.length_nil] at hlen
              simp [hlen]
          | cons c2 rest2 =>
              have hnext0 : ndh.next = some c2.1 := by simpa using hnext
              rw [pop_front_eq_multi hht2 hndh hnext0]
              obtain ⟨nd2, hnd2, hdata2, hprev2, hnext2, hrest2⟩ := hrest
              have hnodup2 : c2.1 ∉ rest2.map Prod.fst := by
                have h2 := (List.nodup_cons.1 (List.nodup_cons.1 (by
                  simpa only [List.map_cons] using hnodup)).2).1
                exact h2
              refine ⟨by simp [hdata], ?_, ?_, ?_, ?_⟩
              · refine ⟨{ nd2 with prev := none }, ?_, hdata2, rfl,
                  by simpa using hnext2, ?_⟩
                · rw [set_prev, getElem?_modifyNode_self _ hnd2]
                · refine chain_congr (fun a ha => ?_) hrest2
                  have hane : a ≠ c2.1 := fun hcontr =>
                    hnodup2 (hcontr ▸ ha)
                  rw [set_prev, getElem?_modifyNode_ne _ hane]
              · exact (List.nodup_cons.1 (by
                  simpa only [List.map_cons] using hnodup)).2
              · simp only [List.length_cons] at hlen
                simp [hlen]
              · refine ⟨by simp, by simp, ?_⟩
                simp only [List.map_cons] at hlast ⊢
                rw [List.getLast?_cons_cons] at hlast
                exact hlast

theorem ListInv_pop {s : LinkedList α} {cells : List (Nat × α)}
    (h : ListInv s cells) :
    (s.pop).1 = (cells.getLast?).map Prod.snd ∧
      ListInv (s.pop).2 cells.dropLast := by
  obtain ⟨hch, hnodup, hlen, hht⟩ := h
  have hbound := chain_bound hch
  cases hht2 : s.head_and_tail with
  | none =>
      have hcells : cells = [] := by rw [hht2] at hht; exact hht
      subst hcells
      rw [LinkedList.pop, pop_helper_eq_none _ hht2]
      exact ⟨rfl, hch, hnodup, hlen, by simp [hht2]⟩
  | some ht =>
      rw [hht2] at hht
      obtain ⟨hne, hhead, hlast⟩ := hht
      set cl := cells.getLast hne with hcl
      have hsplit : cells.dropLast ++ [cl] = cells :=
        List.dropLast_append_getLast hne
      set init := cells.dropLast with hinitdef
      have hchs : chain s.heap none (init ++ [cl]) := by rw [hsplit]; exact hch
      obtain ⟨ndt, hndt, hdatat, hnextt, hprevt⟩ := chain_getLast_node hchs
      have h1 : (cells.map Prod.fst).getLast? = some cl.1 := by
        rw [← hsplit]
        simp
      have hcl1 : cl.1 = ht.2 := by
        rw [h1] at hlast
        exact Option.some.inj hlast
      have hlastcells : cells.getLast? = some cl := List.getLast?_eq_getLast _ hne
      rw [hcl1] at hndt
      have hlencells : cells.length = init.length + 1 := by
        rw [← hsplit]
        simp
      by_cases hinitnil : init = []
      · have hprev0 : ndt.prev = none := by
          rw [hprevt, hinitnil]
          rfl
        rw [pop_eq_single hht2 hndt hprev0]
        refine ⟨by simp [hlastcells, hdatat], ?_, ?_, ?_, ?_⟩
        · rw [hinitnil]; trivial
        · rw [hinitnil]; simp
        · rw [hlen, hlencells, hinitnil]
          simp
        · exact hinitnil
      · have hinitne : init.map Prod.fst ≠ [] := by
          simpa using hinitnil
        obtain ⟨p2, hp2⟩ :=
          Option.isSome_iff_exists.1 (List.getLast?_isSome.2 hinitne)
        have hprev0 : ndt.prev = some p2 := by
          rw [hprevt, hp2]
          rfl
        rw [pop_eq_multi hht2 hndt hprev0]
        have hnodupa : (init.map Prod.fst ++ [cl.1]).Nodup := by
          have hmapsplit : (init ++ [cl]).map Prod.fst =
              init.map Prod.fst ++ [cl.1] := by simp
          rw [← hmapsplit, hsplit]
          exact hnodup
        have hnodupinit : (init.map Prod.fst).Nodup :=
          List.Nodup.of_append_left hnodupa
        have hagree : ∀ a ∈ init.map Prod.fst, a ≠ p2 →
            (set_next s.heap p2 none)[a]? = s.heap[a]? := by
          intro a ha hane
          rw [set_next, getElem?_modifyNode_ne _ hane]
        have hsetp2 : ∀ nd : Node α, s.heap[p2]? = some nd →
            (set_next s.heap p2 none)[p2]? = some { nd with next := none } := by
          intro nd hnd
          rw [set_next, getElem?_modifyNode_self _ hnd]
        refine ⟨by simp [hlastcells, hdatat], ?_, hnodupinit, ?_, ?_⟩
        · exact chain_unsnoc_update hnodupinit hp2 hagree hsetp2 hchs
        · rw [hlen, hlencells]
          simp
        · refine ⟨hinitnil, ?_, hp2⟩
          have hh : (init.map Prod.fst).head? = some ht.1 := by
            have h2 : (cells.map Prod.fst).head? = some ht.1 := hhead
            rw [← hsplit, List.map_append,
              List.head?_append_of_ne_nil _ hinitne] at h2
            exact h2
          exact hh

/-! ### The abstraction relation and its transfer through the operations -/

theorem Models_new (α : Type) : Models (LinkedList.new α) [] :=
  ⟨[], ListInv_new α, rfl⟩

theorem Models_len {s : LinkedList α} {l : List α} (h : Models s l) :
    s.len = l.length := by
  obtain ⟨cells, ⟨-, -, hlen, -⟩, hsnd⟩ := h
  rw [hlen, ← hsnd, List.length_map]

theorem Models_push {s : LinkedList α} {l : List α} (v : α)
    (h : Models s l) : Models (s.push v) (l ++ [v]) := by
  obtain ⟨cells, hinv, hsnd⟩ := h
  exact ⟨cells ++ [(s.heap.length, v)], ListInv_push v hinv, by simp [hsnd]⟩

theorem Models_push_front {s : LinkedList α} {l : List α} (v : α)
    (h : Models s l) : Models (s.push_front v) (v :: l) := by
  obtain ⟨cells, hinv, hsnd⟩ := h
  exact ⟨(s.heap.length, v) :: cells, ListInv_push_front v hinv, by simp [hsnd]⟩

theorem Models_pop_front {s : LinkedList α} {l : List α}
    (h : Models s l) :
    (s.pop_front).1 = l.head? ∧ Models (s.pop_front).2 l.tail := by
  obtain ⟨cells, hinv, hsnd⟩ := h
  obtain ⟨hval, hinv2⟩ := ListInv_pop_front hinv
  refine ⟨?_, cells.tail, hinv2, ?_⟩
  · rw [hval, ← hsnd, List.head?_map]
  · rw [← hsnd, List.map_tail]

theorem Models_pop {s : LinkedList α} {l : List α}
    (h : Models s l) :
    (s.pop).1 = l.getLast? ∧ Models (s.pop).2 l.dropLast := by
  obtain ⟨cells, hinv, hsnd⟩ := h
  obtain ⟨hval, hinv2⟩ := ListInv_pop hinv
  refine ⟨?_, cells.dropLast, hinv2, ?_⟩
  · rw [hval, ← hsnd, List.getLast?_map]
  · rw [← hsnd, List.map_dropLast]

theorem Models_empty {s : LinkedList α} (h : Models s []) :
    s.len = 0 ∧ s.head_and_tail = none := by
  obtain ⟨cells, ⟨-, -, hlen, hht⟩, hsnd⟩ := h
  have hcells : cells = [] := by
    cases cells with
    | nil => rfl
    | cons c rest => simp at hsnd
  subst hcells
  refine ⟨by simpa using hlen, ?_⟩
  cases hht2 : s.head_and_tail with
  | none => rfl
  | some ht =>
      rw [hht2] at hht
      exact absurd rfl hht.1

/-! ### Iteration and graph walks over a chained segment -/

theorem iter_cursor {s : LinkedList α} {cells : List (Nat × α)}
    (h : ListInv s cells) :
    s.iter = ⟨(cells.head?).map Prod.fst⟩ := by
  obtain ⟨-, -, -, hht⟩ := h
  cases hht2 : s.head_and_tail with
  | none =>
      have hcells : cells = [] := by rw [hht2] at hht; exact hht
      subst hcells
      rw [LinkedList.iter, hht2]
      rfl
  | some ht =>
      rw [hht2] at hht
      obtain ⟨-, hhead, -⟩ := hht
      rw [LinkedList.iter, hht2]
      rw [List.head?_map] at hhead
      simp [hhead]

theorem chain_iterTrace {heap : List (Node α)} :
    ∀ {cells : List (Nat × α)} {p : Option Nat}, chain heap p cells → ∀ k,
      iterTrace heap ⟨(cells.head?).map Prod.fst⟩ (cells.length + k) =
        cells.map Prod.snd := by
  intro cells
  induction cells with
  | nil =>
      intro p _ k
      rw [List.length_nil, Nat.zero_add]
      cases k <;> rfl
  | cons c rest ih =>
      intro p hch k
      obtain ⟨nd, hnd, hdata, -, hnext, hrest⟩ := hch
      rw [List.length_cons, Nat.add_right_comm]
      have hcur : ((c :: rest).head?).map Prod.fst = some c.1 := rfl
      rw [hcur]
      simp only [iterTrace, LinkedListIter.next, hnd, hdata, hnext]
      rw [ih hrest k]
      simp

theorem chain_walk_fwd {heap : List (Node α)} :
    ∀ {cells : List (Nat × α)} {p : Option Nat}, chain heap p cells → ∀ k,
      walk heap Node.next ((cells.head?).map Prod.fst) (cells.length + k) =
        cells.map Prod.fst := by
  intro cells
  induction cells with
  | nil =>
      intro p _ k
      rw [List.length_nil, Nat.zero_add]
      cases k <;> rfl
  | cons c rest ih =>
      intro p hch k
      obtain ⟨nd, hnd, -, -, hnext, hrest⟩ := hch
      rw [List.length_cons, Nat.add_right_comm]
      simp only [List.head?_cons, Option.map_some, walk, hnd, hnext]
      rw [ih hrest k]
      simp

theorem chain_walk_bwd {heap : List (Node α)} :
    ∀ {cells : List (Nat × α)} {p : Option Nat} {t : Nat},
      chain heap p cells → (cells.map Prod.fst).getLast? = some t → ∀ k,
      walk heap Node.prev (some t) (cells.length + k) =
        (cells.map Prod.fst).reverse ++ walk heap Node.prev p k := by
  intro cells
  induction cells with
  | nil => intro p t _ hlast; simp at hlast
  | cons c rest ih =>
      intro p t hch hlast k
      obtain ⟨nd, hnd, -, hprev, -, hrest⟩ := hch
      cases rest with
      | nil =>
          have hct : c.1 = t := by simpa using hlast
          subst hct
          simp only [List.length_cons, List.length_nil, Nat.zero_add,
            Nat.add_comm 1 k]
          simp only [walk, hnd, hprev]
          simp
      | cons c2 rest2 =>
          have hlast2 : ((c2 :: rest2).map Prod.fst).getLast? = some t := by
            simpa [List.getLast?_cons_cons] using hlast
          have harith : (c :: c2 :: rest2).length + k =
              (c2 :: rest2).length + (k + 1) := by
            simp only [List.length_cons]
            omega
          rw [harith, ih hrest hlast2 (k + 1)]
          have hwalk1 : walk heap Node.prev (some c.1) (k + 1) =
              c.1 :: walk heap Node.prev p k := by
            simp only [walk, hnd, hprev]
          rw [hwalk1]
          simp

theorem chain_adjacent {heap : List (Node α)} :
    ∀ {cells : List (Nat × α)} {p : Option Nat} {i a b : Nat},
      chain heap p cells →
      (cells.map Prod.fst)[i]? = some a →
      (cells.map Prod.fst)[i + 1]? = some b →
      ∃ na nb, heap[a]? = some na ∧ heap[b]? = some nb ∧
        na.next = some b ∧ nb.prev = some a := by
  intro cells
  induction cells with
  | nil => intro p i a b _ ha; simp at ha
  | cons c rest ih =>
      intro p i a b hch ha hb
      obtain ⟨nd, hnd, -, -, hnext, hrest⟩ := hch
      cases i with
      | zero =>
          have hac : c.1 = a := by simpa using ha
          subst hac
          cases rest with
          | nil => simp at hb
          | cons c2 rest2 =>
              have hbc : c2.1 = b := by simpa using hb
              subst hbc
              obtain ⟨nd2, hnd2, -, hprev2, -, -⟩ := hrest
              exact ⟨nd, nd2, hnd, hnd2, by simpa using hnext, hprev2⟩
      | succ i2 =>
          exact @ih (some c.1) i2 a b hrest (by simpa using ha)
            (by simpa using hb)

/-! ### Derived facts about the drivers -/

theorem Models_pushAll {s : LinkedList α} {l : List α} :
    ∀ {vs : List α}, Models s l → Models (pushAll s vs) (l ++ vs) := by
  intro vs
  induction vs generalizing s l with
  | nil => intro h; simpa using h
  | cons v vs2 ih =>
      intro h
      have h2 := ih (Models_push v h)
      simpa using h2

theorem Models_pushFrontAll {s : LinkedList α} {l : List α} :
    ∀ {vs : List α}, Models s l →
      Models (pushFrontAll s vs) (vs.reverse ++ l) := by
  intro vs
  induction vs generalizing s l with
  | nil => intro h; simpa using h
  | cons v vs2 ih =>
      intro h
      have h2 := ih (Models_push_front v h)
      simpa using h2

theorem Reachable_Models {s : LinkedList α} (h : Reachable s) :
    ∃ l, Models s l := by
  induction h with
  | new => exact ⟨[], Models_new α⟩
  | push s2 v _ ih =>
      obtain ⟨l, hl⟩ := ih
      exact ⟨l ++ [v], Models_push v hl⟩
  | push_front s2 v _ ih =>
      obtain ⟨l, hl⟩ := ih
      exact ⟨v :: l, Models_push_front v hl⟩
  | pop s2 _ ih =>
      obtain ⟨l, hl⟩ := ih
      exact ⟨l.dropLast, (Models_pop hl).2⟩
  | pop_front s2 _ ih =>
      obtain ⟨l, hl⟩ := ih
      exact ⟨l.tail, (Models_pop_front hl).2⟩

theorem drainFront_spec {l : List α} :
    ∀ {s2 : LinkedList α}, Models s2 l →
      (drainFront s2 l.length).1 = l ∧ Models (drainFront s2 l.length).2 [] := by
  induction l with
  | nil => intro s2 h; exact ⟨rfl, h⟩
  | cons v l2 ih =>
      intro s2 h
      obtain ⟨hval, hrest⟩ := Models_pop_front h
      simp only [List.head?_cons] at hval
      simp only [List.length_cons, drainFront, hval]
      obtain ⟨h1, h2⟩ := ih hrest
      exact ⟨by rw [h1], h2⟩

theorem drainBack_spec :
    ∀ {n : Nat} {l : List α} {s2 : LinkedList α}, l.length = n → Models s2 l →
      (drainBack s2 n).1 = l.reverse ∧ Models (drainBack s2 n).2 [] := by
  intro n
  induction n with
  | zero =>
      intro l s2 hlen h
      have : l = [] := List.length_eq_zero.1 hlen
      subst this
      exact ⟨rfl, h⟩
  | succ n2 ih =>
      intro l s2 hlen h
      have hne : l ≠ [] := by
        intro hcontr
        subst hcontr
        simp at hlen
      obtain ⟨hval, hrest⟩ := Models_pop h
      rw [List.getLast?_eq_getLast _ hne] at hval
      simp only [drainBack, hval]
      have hlen2 : l.dropLast.length = n2 := by
        rw [List.length_dropLast, hlen]
        rfl
      obtain ⟨h1, h2⟩ := ih hlen2 hrest
      refine ⟨?_, h2⟩
      rw [h1]
      conv_rhs => rw [← List.dropLast_append_getLast hne]
      simp

theorem next_heap_eq (heap : List (Node α)) (it : LinkedListIter α) :
    (LinkedListIter.next heap it).2.1 = heap := by
  cases hc : it.cursor with
  | none => simp [LinkedListIter.next, hc]
  | some a => cases hh : heap[a]? <;> simp [LinkedListIter.next, hc, hh]

theorem next_none_fixes {heap : List (Node α)} {it : LinkedListIter α}
    (h : (LinkedListIter.next heap it).1 = none) :
    LinkedListIter.next heap it = (none, heap, it) := by
  cases hc : it.cursor with
  | none => simp [LinkedListIter.next, hc]
  | some a =>
      cases hh : heap[a]? with
      | none => simp [LinkedListIter.next, hc, hh]
      | some nd =>
          rw [LinkedListIter.next, hc] at h
          simp [hh] at h

theorem iterStepN_of_exhausted {heap : List (Node α)} {it : LinkedListIter α}
    (h : (LinkedListIter.next heap it).1 = none) :
    ∀ n, iterStepN heap it n = it := by
  intro n
  induction n with
  | zero => rfl
  | succ n2 ih =>
      have hfix : (LinkedListIter.next heap it).2.2 = it := by
        rw [next_none_fixes h]
      calc iterStepN heap it (n2 + 1)
          = iterStepN heap (LinkedListIter.next heap it).2.2 n2 := rfl
        _ = iterStepN heap it n2 := by rw [hfix]
        _ = it := ih

theorem iterRun_heap_eq (heap : List (Node α)) :
    ∀ (n : Nat) (it : LinkedListIter α), (iterRun heap it n).2.1 = heap := by
  intro n
  induction n with
  | zero => intro it; rfl
  | succ n2 ih =>
      intro it
      cases hn : LinkedListIter.next heap it with
      | mk o rest =>
          have hh : rest.1 = heap := by
            have := next_heap_eq heap it
            rw [hn] at this
            exact this
          cases o with
          | none =>
              simp only [iterRun, hn]
              rw [hh]
              exact ih rest.2
          | some v =>
              simp only [iterRun, hn]
              rw [hh]
              exact ih rest.2

theorem if_isSome_some {β : Type} (x : β) :
    (if (some x).isSome = true then (1 : Nat) else 0) = 1 := rfl

theorem if_isSome_none {β : Type} :
    (if (none : Option β).isSome = true then (1 : Nat) else 0) = 0 := rfl

theorem if_false_flag :
    (if false = true then (1 : Nat) else 0) = 0 := rfl

theorem runOps_balance {α : Type} :
    ∀ {ops : List (Op α)} {s : LinkedList α} {l : List α}, Models s l →
      (runOps s ops).1.len + (runOps s ops).2 = l.length + countPushes ops ∧
        ∃ l2, Models (runOps s ops).1 l2 := by
  intro ops
  induction ops with
  | nil =>
      intro s l h
      exact ⟨by simpa using Models_len h, ⟨l, h⟩⟩
  | cons op ops2 ih =>
      intro s l h
      cases op with
      | push v =>
          obtain ⟨h1, h2⟩ := ih (Models_push v h)
          refine ⟨?_, h2⟩
          simp only [runOps, applyOp, countPushes, if_false_flag]
          simp only [List.length_append, List.length_cons, List.length_nil]
            at h1
          omega
      | push_front v =>
          obtain ⟨h1, h2⟩ := ih (Models_push_front v h)
          refine ⟨?_, h2⟩
          simp only [runOps, applyOp, countPushes, if_false_flag]
          simp only [List.length_cons] at h1
          omega
      | pop =>
          obtain ⟨hval, hrest⟩ := Models_pop h
          obtain ⟨h1, h2⟩ := ih hrest
          refine ⟨?_, h2⟩
          simp only [runOps, applyOp, countPushes, hval]
          cases hl : l with
          | nil =>
              subst hl
              simp only [List.getLast?_nil, if_isSome_none]
              simpa using h1
          | cons v l2 =>
              subst hl
              have hlne : (v :: l2 : List α) ≠ [] := by simp
              rw [List.getLast?_eq_getLast _ hlne, if_isSome_some]
              have hdl : (v :: l2).dropLast.length = l2.length := by
                rw [List.length_dropLast]
                simp
              rw [hdl] at h1
              simp only [List.length_cons]
              omega
      | pop_front =>
          obtain ⟨hval, hrest⟩ := Models_pop_front h
          obtain ⟨h1, h2⟩ := ih hrest
          refine ⟨?_, h2⟩
          simp only [runOps, applyOp, countPushes, hval]
          cases hl : l with
          | nil =>
              subst hl
              simp only [List.head?_nil, if_isSome_none]
              simpa using h1
          | cons v l2 =>
              subst hl
              simp only [List.head?_cons, if_isSome_some, List.tail_cons]
                at *
              simp only [List.length_cons]
              omega

theorem Models_iterTrace {s : LinkedList α} {l : List α} (h : Models s l) :
    ∀ k, iterTrace s.heap s.iter (l.length + k) = l := by
  intro k
  obtain ⟨cells, hinv, hsnd⟩ := h
  have hlen : l.length = cells.length := by rw [← hsnd, List.length_map]
  rw [iter_cursor hinv, hlen, chain_iterTrace hinv.1 k]
  exact hsnd

theorem chain_first_prev {heap : List (Node α)} {cells : List (Nat × α)}
    {c : Nat × α} (hch : chain heap none cells) (hc : cells.head? = some c) :
    ∃ nd, heap[c.1]? = some nd ∧ nd.prev = none := by
  cases cells with
  | nil => simp at hc
  | cons c0 rest =>
      have : c0 = c := by simpa using hc
      subst this
      obtain ⟨nd, hnd, -, hprev, -, -⟩ := hch
      exact ⟨nd, hnd, hprev⟩

theorem chain_last_next {heap : List (Node α)} {cells : List (Nat × α)}
    (hch : chain heap none cells) (hne : cells ≠ []) :
    ∃ nd, heap[(cells.getLast hne).1]? = some nd ∧ nd.next = none := by
  have hsplit : cells.dropLast ++ [cells.getLast hne] = cells :=
    List.dropLast_append_getLast hne
  have hchs : chain heap none (cells.dropLast ++ [cells.getLast hne]) := by
    rw [hsplit]
    exact hch
  obtain ⟨nd, hnd, -, hnext, -⟩ := chain_getLast_node hchs
  exact ⟨nd, hnd, hnext⟩

theorem walk_none (heap : List (Node α)) (f : Node α → Option Nat) (n : Nat) :
    walk heap f none n = [] := by
  cases n <;> rfl

/-! ### The claims -/

/-- C1: after any sequence of N `push` calls on a fresh empty list, `len()`
equals N, and the iterator from `iter()` yields exactly the N pushed values in
push order (any extra fuel beyond N yields nothing more). -/
theorem push_len_and_iter_order (α : Type) (vs : List α) :
    (pushAll (LinkedList.new α) vs).len = vs.length ∧
    ∀ k, iterTrace (pushAll (LinkedList.new α) vs).heap
      (pushAll (LinkedList.new α) vs).iter (vs.length + k) = vs := by
  have hm : Models (pushAll (LinkedList.new α) vs) vs := by
    simpa using Models_pushAll (Models_new α)
  exact ⟨Models_len hm, fun k => Models_iterTrace hm k⟩

/-- C2: after any sequence of N `push_front` calls on a fresh empty list,
`iter()` yields exactly the N pushed values in reverse push order. -/
theorem push_front_iter_reverse_order (α : Type) (vs : List α) :
    ∀ k, iterTrace (pushFrontAll (LinkedList.new α) vs).heap
      (pushFrontAll (LinkedList.new α) vs).iter (vs.length + k) =
        vs.reverse := by
  have hm : Models (pushFrontAll (LinkedList.new α) vs) vs.reverse := by
    simpa using Models_pushFrontAll (Models_new α)
  intro k
  have h2 := Models_iterTrace hm k
  rw [List.length_reverse] at h2
  exact h2

/-- C3: pushing [v1..vn] with `push` and then popping n times from the front
yields [v1..vn] in order; popping n times from the back instead yields
[vn..v1]; in either case the list is empty afterwards (length 0 and the
head/tail pair absent). -/
theorem push_pop_roundtrip (α : Type) (vs : List α) :
    (drainFront (pushAll (LinkedList.new α) vs) vs.length).1 = vs ∧
    (drainFront (pushAll (LinkedList.new α) vs) vs.length).2.len = 0 ∧
    (drainFront (pushAll (LinkedList.new α) vs) vs.length).2.head_and_tail
      = none ∧
    (drainBack (pushAll (LinkedList.new α) vs) vs.length).1 = vs.reverse ∧
    (drainBack (pushAll (LinkedList.new α) vs) vs.length).2.len = 0 ∧
    (drainBack (pushAll (LinkedList.new α) vs) vs.length).2.head_and_tail
      = none := by
  have hm : Models (pushAll (LinkedList.new α) vs) vs := by
    simpa using Models_pushAll (Models_new α)
  obtain ⟨hf1, hf2⟩ := drainFront_spec hm
  obtain ⟨hb1, hb2⟩ := drainBack_spec rfl hm
  obtain ⟨hfl, hfh⟩ := Models_empty hf2
  obtain ⟨hbl, hbh⟩ := Models_empty hb2
  exact ⟨hf1, hfl, hfh, hb1, hbl, hbh⟩

/-- C4: `pop` and `pop_front` on an empty list (absent head/tail pair) return
`none` and leave the entire list state unchanged — in particular `len()` stays
as it was (0 for a reachable empty list). -/
theorem pop_empty_no_mutation {α : Type} (s : LinkedList α)
    (h : s.head_and_tail = none) :
    s.pop = (none, s) ∧ s.pop_front = (none, s) :=
  ⟨by rw [LinkedList.pop, pop_helper_eq_none _ h],
   by rw [LinkedList.pop_front, pop_helper_eq_none _ h]⟩

/-- Witness for C4 at the concrete empty list over `Nat`. -/
theorem pop_empty_no_mutation_witness :
    (LinkedList.new Nat).head_and_tail = none ∧
    ((LinkedList.new Nat).pop = (none, LinkedList.new Nat) ∧
     (LinkedList.new Nat).pop_front = (none, LinkedList.new Nat)) :=
  ⟨rfl, pop_empty_no_mutation (LinkedList.new Nat) rfl⟩

/-- C6: for every list state and value x, `push x` then `pop` returns x,
`len()` returns to its pre-push value, and the contents are as before the
push. -/
theorem push_then_pop_returns_value {α : Type} {s : LinkedList α}
    {l : List α} (v : α) (h : Models s l) :
    ((s.push v).pop).1 = some v ∧ ((s.push v).pop).2.len = s.len ∧
      Models ((s.push v).pop).2 l := by
  have h2 := Models_push v h
  obtain ⟨hval, hrest⟩ := Models_pop h2
  have hrest2 : Models ((s.push v).pop).2 l := by
    rw [List.dropLast_concat] at hrest
    exact hrest
  refine ⟨?_, ?_, hrest2⟩
  · rw [hval]
    simp
  · rw [Models_len hrest2, Models_len h]

/-- Witness for C6: pushing 7 onto the empty list and popping returns 7 and
restores the empty contents. -/
theorem push_then_pop_returns_value_witness :
    (((LinkedList.new Nat).push 7).pop).1 = some 7 ∧
    (((LinkedList.new Nat).push 7).pop).2.len = (LinkedList.new Nat).len ∧
      Models (((LinkedList.new Nat).push 7).pop).2 [] :=
  push_then_pop_returns_value 7 (Models_new Nat)

/-- C7: the forward iterator is fused — with the cursor unset, `next()`
returns `none` and changes nothing, and once `next()` has returned `none`,
every further call (any number of steps later) still returns `none`. -/
theorem iterator_fused {α : Type} (heap : List (Node α))
    (it : LinkedListIter α) :
    (it.cursor = none → LinkedListIter.next heap it = (none, heap, it)) ∧
    ((LinkedListIter.next heap it).1 = none →
      ∀ n, (LinkedListIter.next heap (iterStepN heap it n)).1 = none) := by
  constructor
  · intro h
    simp [LinkedListIter.next, h]
  · intro h n
    rw [iterStepN_of_exhausted h n]
    exact h

/-- Witness for C7 at a concrete exhausted iterator. -/
theorem iterator_fused_witness :
    (LinkedListIter.next ([] : List (Node Nat)) ⟨none⟩ =
      (none, [], ⟨none⟩)) ∧
    (LinkedListIter.next ([] : List (Node Nat))
      (iterStepN [] (⟨none⟩ : LinkedListIter Nat) 3)).1 = none :=
  ⟨(iterator_fused [] ⟨none⟩).1 rfl, (iterator_fused [] ⟨none⟩).2 rfl 3⟩

/-- C8: consuming iteration equals `iter()`: `into_iter` yields exactly the
same sequence of values as `iter()` on the same list state (the source
implements `into_iter` as `self.iter()`). -/
theorem into_iter_eq_iter {α : Type} (s : LinkedList α) (k : Nat) :
    iterTrace s.heap s.into_iter k = iterTrace s.heap s.iter k := rfl

/-- C9: iteration does not mutate the list: threading any number of `next()`
calls through the program state returns the heap unchanged, so `len()` and the
trace of a subsequently created fresh `iter()` are exactly as if no iteration
had occurred. -/
theorem iteration_does_not_mutate {α : Type} (s : LinkedList α)
    (it : LinkedListIter α) (n k : Nat) :
    (iterRun s.heap it n).2.1 = s.heap ∧
    iterTrace (iterRun s.heap it n).2.1 s.iter k =
      iterTrace s.heap s.iter k := by
  have h := iterRun_heap_eq s.heap n it
  exact ⟨h, by rw [h]⟩

/-- C10: over any operation sequence from `new`, `len` plus the number of
pops that returned a value equals the number of pushes — the decrement is
only ever applied to a positive length, so the subtraction cannot underflow
and `len` never wraps around. -/
theorem len_equals_pushes_minus_pops (α : Type) (ops : List (Op α)) :
    (runOps (LinkedList.new α) ops).1.len +
        (runOps (LinkedList.new α) ops).2 = countPushes ops ∧
    (runOps (LinkedList.new α) ops).2 ≤ countPushes ops := by
  obtain ⟨h1, -⟩ := runOps_balance (Models_new α)
  constructor
  · simpa using h1
  · simp only [List.length_nil] at h1
    omega

/-- C5: every reachable list state satisfies the structural invariant: the
addresses reachable by following `next` from the head form a list `addrs` of
length `len` (and following `prev` from the tail visits exactly `addrs`
reversed), the `prev` of the head and the `next` of the tail are absent, an empty list
has the head/tail pair entirely absent, and for adjacent nodes A before B,
A.next references B if and only if B.prev references A (both hold). -/
theorem structural_invariant {α : Type} (s : LinkedList α)
    (h : Reachable s) :
    ∃ addrs : List Nat,
      addrs.length = s.len ∧
      (∀ k, walk s.heap Node.next (s.head_and_tail.map Prod.fst)
        (s.len + k) = addrs) ∧
      (∀ k, walk s.heap Node.prev (s.head_and_tail.map Prod.snd)
        (s.len + k) = addrs.reverse) ∧
      (s.head_and_tail = none ↔ addrs = []) ∧
      (∀ h2 t2 : Nat, s.head_and_tail = some (h2, t2) →
        addrs.head? = some h2 ∧ addrs.getLast? = some t2 ∧
        (∃ nh, s.heap[h2]? = some nh ∧ nh.prev = none) ∧
        (∃ nt, s.heap[t2]? = some nt ∧ nt.next = none)) ∧
      (∀ i a b : Nat, addrs[i]? = some a → addrs[i + 1]? = some b →
        ∃ na nb, s.heap[a]? = some na ∧ s.heap[b]? = some nb ∧
          (na.next = some b ↔ nb.prev = some a) ∧
          na.next = some b ∧ nb.prev = some a) := by
  obtain ⟨l, hm⟩ := Reachable_Models h
  obtain ⟨cells, hinv, -⟩ := hm
  obtain ⟨hch, hnodup, hlen, hhtm⟩ := hinv
  refine ⟨cells.map Prod.fst, ?_, ?_, ?_, ?_, ?_, ?_⟩
  · rw [List.length_map, hlen]
  · intro k
    cases hht2 : s.head_and_tail with
    | none =>
        rw [hht2] at hhtm
        subst hhtm
        simp [walk_none]
    | some ht =>
        rw [hht2] at hhtm
        obtain ⟨-, hhead, -⟩ := hhtm
        rw [List.head?_map] at hhead
        rw [hlen]
        have hcur : (some ht).map (Prod.fst : Nat × Nat → Nat) = some ht.1 :=
          rfl
        rw [hcur, ← hhead]
        exact chain_walk_fwd hch k
  · intro k
    cases hht2 : s.head_and_tail with
    | none =>
        rw [hht2] at hhtm
        subst hhtm
        simp [walk_none]
    | some ht =>
        rw [hht2] at hhtm
        obtain ⟨-, -, hlast⟩ := hhtm
        rw [hlen]
        have hcur : (some ht).map (Prod.snd : Nat × Nat → Nat) = some ht.2 :=
          rfl
        rw [hcur]
        have h3 := chain_walk_bwd hch hlast k
        rw [walk_none, List.append_nil] at h3
        exact h3
  · cases hht2 : s.head_and_tail with
    | none =>
        rw [hht2] at hhtm
        subst hhtm
        simp
    | some ht =>
        rw [hht2] at hhtm
        obtain ⟨hne, -, -⟩ := hhtm
        constructor
        · intro hcontr
          simp at hcontr
        · intro hmapnil
          exact absurd (List.map_eq_nil_iff.1 hmapnil) hne
  · intro h2 t2 hht2
    rw [hht2] at hhtm
    obtain ⟨hne, hhead, hlast⟩ := hhtm
    refine ⟨hhead, hlast, ?_, ?_⟩
    · rw [List.head?_map] at hhead
      cases hc : cells.head? with
      | none => rw [hc] at hhead; simp at hhead
      | some c =>
          rw [hc] at hhead
          have hc1 : c.1 = h2 := by simpa using hhead
          obtain ⟨nd, hnd, hprev⟩ := chain_first_prev hch hc
          rw [hc1] at hnd
          exact ⟨nd, hnd, hprev⟩
    · have hcl : (cells.getLast hne).1 = t2 := by
        rw [List.getLast?_map, List.getLast?_eq_getLast _ hne] at hlast
        simpa using hlast
      obtain ⟨nd, hnd, hnext⟩ := chain_last_next hch hne
      rw [hcl] at hnd
      exact ⟨nd, hnd, hnext⟩
  · intro i a b ha hb
    obtain ⟨na, nb, h1, h2, h3, h4⟩ := chain_adjacent hch ha hb
    exact ⟨na, nb, h1, h2, iff_of_true h3 h4, h3, h4⟩

/-- Witness for C5 at the concrete reachable state `new().push(5)`. -/
theorem structural_invariant_witness :
    ∃ addrs : List Nat,
      addrs.length = ((LinkedList.new Nat).push 5).len ∧
      (∀ k, walk ((LinkedList.new Nat).push 5).heap Node.next
        (((LinkedList.new Nat).push 5).head_and_tail.map Prod.fst)
        (((LinkedList.new Nat).push 5).len + k) = addrs) ∧
      (∀ k, walk ((LinkedList.new Nat).push 5).heap Node.prev
        (((LinkedList.new Nat).push 5).head_and_tail.map Prod.snd)
        (((LinkedList.new Nat).push 5).len + k) = addrs.reverse) ∧
      (((LinkedList.new Nat).push 5).head_and_tail = none ↔ addrs = []) ∧
      (∀ h2 t2 : Nat,
        ((LinkedList.new Nat).push 5).head_and_tail = some (h2, t2) →
        addrs.head? = some h2 ∧ addrs.getLast? = some t2 ∧
        (∃ nh, ((LinkedList.new Nat).push 5).heap[h2]? = some nh ∧
          nh.prev = none) ∧
        (∃ nt, ((LinkedList.new Nat).push 5).heap[t2]? = some nt ∧
          nt.next = none)) ∧
      (∀ i a b : Nat, addrs[i]? = some a → addrs[i + 1]? = some b →
        ∃ na nb, ((LinkedList.new Nat).push 5).heap[a]? = some na ∧
          ((LinkedList.new Nat).push 5).heap[b]? = some nb ∧
          (na.next = some b ↔ nb.prev = some a) ∧
          na.next = some b ∧ nb.prev = some a) :=
  structural_invariant ((LinkedList.new Nat).push 5)
    (Reachable.push (LinkedList.new Nat) 5 Reachable.new)
